import Mathlib

/-!
Shallow embedding of the kwantrace-py geometric core: homogeneous
Position/Direction vectors, the Transformation variants and their 4×4
matrices, Transformable composition (`combine`/`prepareRender`), the ray
transform, the Primitive `inside`/`normal` contract, and the Renderable
pigment synchronisation.  Real scalars model the source floats; a partial
numpy operation (normalisation of a zero vector, lookup of an attribute or
method that was never defined) is modelled as `Option.none`.
-/

namespace Kwantrace

/-- 3-component column vector (the three leading components of a
homogeneous vector, `position_direction.col_vector`). -/
abbrev Vec3R := Fin 3 → ℝ

/-- 4-component homogeneous column vector. -/
abbrev Vec4R := Fin 4 → ℝ

/-- 3×3 real matrix. -/
abbrev Mat3R := Matrix (Fin 3) (Fin 3) ℝ

/-- 4×4 real matrix. -/
abbrev Mat4R := Matrix (Fin 4) (Fin 4) ℝ

/-- `position_direction.Position x y z`: homogeneous vector with `w = 1`. -/
def Position (x y z : ℝ) : Vec4R := ![x, y, z, 1]

/-- `position_direction.Direction x y z`: homogeneous vector with `w = 0`. -/
def Direction (x y z : ℝ) : Vec4R := ![x, y, z, 0]

/-- Promote a 3-vector to a homogeneous Direction (`w = 0`). -/
def homoDir (v : Vec3R) : Vec4R := ![v 0, v 1, v 2, 0]

/-- Promote a 3-vector to a homogeneous Position (`w = 1`). -/
def homoPos (v : Vec3R) : Vec4R := ![v 0, v 1, v 2, 1]

/-- Dot product of 3-vectors (ordinary linear algebra on the three
leading components, spec §3). -/
def dot3 (a b : Vec3R) : ℝ := a 0 * b 0 + a 1 * b 1 + a 2 * b 2

/-- Modelled from the spec: `kwanmath.vector.vcross` is not under `src/`;
spec §3 says cross is ordinary linear algebra on the 3 leading components. -/
def cross3 (a b : Vec3R) : Vec3R :=
  ![a 1 * b 2 - a 2 * b 1, a 2 * b 0 - a 0 * b 2, a 0 * b 1 - a 1 * b 0]

/-- Euclidean length of a 3-vector. -/
noncomputable def norm3 (v : Vec3R) : ℝ := Real.sqrt (dot3 v v)

/-- The vector scaled to unit length. -/
noncomputable def normalized (v : Vec3R) : Vec3R := fun i => v i / norm3 v

/-- Modelled from the spec: `kwanmath.vector.vnormalize` is not under
`src/`; spec §4.1 says `normalize` on a zero-length vector is undefined and
yields a non-finite result, modelled here as `none`. -/
noncomputable def vnormalize (v : Vec3R) : Option Vec3R :=
  if v = 0 then none else some (normalized v)

/-- `np.hstack((a, b, c))` for three column 3-vectors: the 3×3 matrix with
columns `a`, `b`, `c`. -/
def colMat (a b c : Vec3R) : Mat3R :=
  !![a 0, b 0, c 0; a 1, b 1, c 1; a 2, b 2, c 2]

/-- `result = np.identity(4); result[0:3,0:3] = A`: a 3×3 block embedded in
the 4×4 identity. -/
def embed4 (A : Mat3R) : Mat4R :=
  !![A 0 0, A 0 1, A 0 2, 0;
     A 1 0, A 1 1, A 1 2, 0;
     A 2 0, A 2 1, A 2 2, 0;
     0, 0, 0, 1]

/-- The upper-left 3×3 block of a 4×4 matrix. -/
def upper3 (M : Mat4R) : Mat3R :=
  !![M 0 0, M 0 1, M 0 2; M 1 0, M 1 1, M 1 2; M 2 0, M 2 1, M 2 2]

/-- `Translation.matrix` as written in the source: `result = np.identity(4)`
followed by `result[0,0:3] = self.amount[:]`, i.e. the offset is written
into the entries `(0,0)..(0,2)` of the FIRST ROW (reading the assignment
element-wise; as shaped, numpy in fact refuses to broadcast the `(3,1)`
amount into the length-3 row slice and raises `ValueError`). -/
def translationMatrix (d : Vec3R) : Mat4R :=
  !![d 0, d 1, d 2, 0;
     0, 1, 0, 0;
     0, 0, 1, 0;
     0, 0, 0, 1]

/-- numpy's rule for broadcasting a source array into a destination of the
given shape (shapes as lists of axis lengths): aligning axes from the
right, every source axis must be `1` or equal to the destination axis, and
the source may not have more axes than the destination. -/
def broadcastsTo (src dst : List Nat) : Bool :=
  decide (src.length ≤ dst.length) &&
    (List.zip src.reverse dst.reverse).all fun p => p.1 == 1 || p.1 == p.2

/-- `Translation.matrix()` as executed: the amount has shape `(3,1)` (both
`col_vector` and `reshape(3,1)` guarantee it) and the row slice
`result[0,0:3]` has shape `(3,)`; numpy rejects that broadcast, so the
assignment raises `ValueError` and the method never returns a matrix.
Were the write read element-wise, the result would be `translationMatrix`. -/
def translationMatrixRun (d : Vec3R) : Option Mat4R :=
  if broadcastsTo [3, 1] [3] then some (translationMatrix d) else none

/-- The matrix the spec (§4.2 "Identity with translation column = Δ") and
the class docstring describe: identity with the first three entries of the
fourth column replaced by the offset. -/
def specTranslationMatrix (d : Vec3R) : Mat4R :=
  !![1, 0, 0, d 0;
     0, 1, 0, d 1;
     0, 0, 1, d 2;
     0, 0, 0, 1]

/-- `Scaling.matrix`: diagonal scale on the identity, with a zero component
silently replaced by `1.0`. -/
noncomputable def scalingMatrix (s : Vec3R) : Mat4R :=
  !![if s 0 ≠ 0 then s 0 else 1, 0, 0, 0;
     0, if s 1 ≠ 0 then s 1 else 1, 0, 0;
     0, 0, if s 2 ≠ 0 then s 2 else 1, 0;
     0, 0, 0, 1]

/-- `UniformScaling.matrix`: the same with `sx = sy = sz = s`. -/
noncomputable def uniformScalingMatrix (s : ℝ) : Mat4R :=
  !![if s ≠ 0 then s else 1, 0, 0, 0;
     0, if s ≠ 0 then s else 1, 0, 0;
     0, 0, if s ≠ 0 then s else 1, 0;
     0, 0, 0, 1]

/-- Modelled from the spec: `kwanmath.matrix.rot_axis` is not under `src/`;
spec §4.2 calls it the standard right-handed rotation about one coordinate
axis (x = 0, y = 1, z = 2). -/
noncomputable def rot_axis (axis : Fin 3) (theta : ℝ) : Mat3R :=
  match axis with
  | 0 => Matrix.of ![![1, 0, 0],
                     ![0, Real.cos theta, -Real.sin theta],
                     ![0, Real.sin theta, Real.cos theta]]
  | 1 => Matrix.of ![![Real.cos theta, 0, Real.sin theta],
                     ![0, 1, 0],
                     ![-Real.sin theta, 0, Real.cos theta]]
  | 2 => Matrix.of ![![Real.cos theta, -Real.sin theta, 0],
                     ![Real.sin theta, Real.cos theta, 0],
                     ![0, 0, 1]]

/-- `np.deg2rad`. -/
noncomputable def deg2rad (x : ℝ) : ℝ := x * Real.pi / 180

/-- `RotateScalar.matrix`: the axis rotation embedded in the 4×4 identity,
with the angle converted from degrees when `isDegrees` is set. -/
noncomputable def rotateScalarMatrix (amount : ℝ) (axis : Fin 3)
    (isDegrees : Bool) : Mat4R :=
  embed4 (rot_axis axis (if isDegrees then deg2rad amount else amount))

/-- `RotateVector.matrix`: x-axis rotation, then y, then z
(`result = Rx`, `result = Ry @ result`, `result = Rz @ result`). -/
noncomputable def rotateVectorMatrix (a : Vec3R) (isDegrees : Bool) : Mat4R :=
  embed4 (rot_axis 2 (if isDegrees then deg2rad (a 2) else a 2) *
    (rot_axis 1 (if isDegrees then deg2rad (a 1) else a 1) *
      rot_axis 0 (if isDegrees then deg2rad (a 0) else a 0)))

/-- `calcPointToward` (transformation.py lines 269–277): build the bases
`B = [normalize(p_b), s_b, u_b]` and `R = [normalize(p_r), s_r, u_r]` with
`s = normalize(p × t)`, `u = normalize(p × s)`, and embed `R @ B.T` in the
4×4 identity.  A normalisation of a zero cross product makes the whole
result non-finite (`none`). -/
noncomputable def calcPointToward (p_b p_r t_b t_r : Vec3R) : Option Mat4R := do
  let s_r ← vnormalize (cross3 p_r t_r)
  let u_r ← vnormalize (cross3 p_r s_r)
  let np_r ← vnormalize p_r
  let R := colMat np_r s_r u_r
  let s_b ← vnormalize (cross3 p_b t_b)
  let u_b ← vnormalize (cross3 p_b s_b)
  let np_b ← vnormalize p_b
  let B := colMat np_b s_b u_b
  some (embed4 (R * B.transpose))

/-- `calcLocationLookat` (transformation.py lines 305–324): point-toward
with `p_r = look_at - location` (defaults `p_b = +z`, `t_b = +y`,
`t_r = -z`), then `Translation(location).matrix() @ result`.  The
translation step is the failing `translationMatrixRun`: its row-slice
assignment raises `ValueError` on every call, so the composition never
yields a matrix. -/
noncomputable def calcLocationLookat (location look_at : Vec3R)
    (p_bOpt t_bOpt t_rOpt : Option Vec3R) : Option Mat4R :=
  let p_b := p_bOpt.getD ![0, 0, 1]
  let t_b := t_bOpt.getD ![0, 1, 0]
  let t_r := t_rOpt.getD ![0, 0, -1]
  do
    let result ← calcPointToward p_b (look_at - location) t_b t_r
    let T ← translationMatrixRun location
    some (T * result)

/-- The closed set of `Transformation` variants (spec §3).  Each stores its
own parameters; `LocationLookat` stores its defaults already applied, as in
its constructor. -/
inductive Transformation where
  | translation (d : Vec3R)
  | scaling (s : Vec3R)
  | uniformScaling (s : ℝ)
  | rotateScalar (amount : ℝ) (axis : Fin 3) (isDegrees : Bool)
  | rotateVector (a : Vec3R) (isDegrees : Bool)
  | pointToward (p_b p_r t_b t_r : Vec3R)
  | locationLookat (location look_at p_b t_b t_r : Vec3R)

/-- `Transformation.matrix()`: the 4×4 matrix generated on demand from the
variant parameters; `none` models a non-finite (degenerate) result. -/
noncomputable def Transformation.matrix : Transformation → Option Mat4R
  | .translation d => some (translationMatrix d)
  | .scaling s => some (scalingMatrix s)
  | .uniformScaling s => some (uniformScalingMatrix s)
  | .rotateScalar amount axis isDegrees =>
      some (rotateScalarMatrix amount axis isDegrees)
  | .rotateVector a isDegrees => some (rotateVectorMatrix a isDegrees)
  | .pointToward p_b p_r t_b t_r => calcPointToward p_b p_r t_b t_r
  | .locationLookat location look_at p_b t_b t_r =>
      calcLocationLookat location look_at (some p_b) (some t_b) (some t_r)

/-- `Transformable.combine()`: starting from `np.identity(4)`, fold
`result = trans.matrix() @ result` over the transformation list.  Each
appended `Transformation` is represented here by its generated matrix. -/
def combine (l : List Mat4R) : Mat4R :=
  l.foldl (fun result trans => trans * result) 1

/-- The three matrices cached on a `Transformable` by `prepareRender()`. -/
structure RenderMatrices where
  M_rb : Mat4R
  M_br : Mat4R
  N_rb : Mat4R

/-- `Transformable.prepareRender()`: `M_rb = combine()`,
`M_br = np.linalg.inv(M_rb)`, `N_rb = M_br.T`. -/
noncomputable def prepareRender (l : List Mat4R) : RenderMatrices :=
  let M_rb := combine l
  let M_br := M_rb⁻¹
  { M_rb := M_rb, M_br := M_br, N_rb := M_br.transpose }

/-- A `Ray`: initial point `r0` (a Position) and direction `v` (a
Direction).  These are the two attributes `__init__` assigns. -/
structure Ray where
  r0 : Vec4R
  v : Vec4R

/-- The instance attribute names that appear in `ray.py`.  Python
identifiers are case-sensitive, so `r0` and `R0` are distinct names. -/
inductive RayAttr where
  | r0
  | v
  | R0

/-- Attribute lookup on a constructed `Ray`: `__init__` assigns `r0` and
`v` only, so reading `R0` finds no attribute (`AttributeError`). -/
def Ray.getattr (ray : Ray) : RayAttr → Option Vec4R
  | .r0 => some ray.r0
  | .v => some ray.v
  | .R0 => none

/-- `Ray.__rmatmul__` as written in the source:
`return Ray(M @ self.R0, M @ self.v)` — note the capital `R0`. -/
def Ray.rmatmul (M : Mat4R) (ray : Ray) : Option Ray := do
  let x ← ray.getattr .R0
  let w ← ray.getattr .v
  some ⟨M.mulVec x, M.mulVec w⟩

/-- A prepared `Primitive`: the cached matrices, the `inside_out` flag and
the shape plugin callbacks (`insideLocal`, `normalLocal` of spec §6,
supplied by the concrete shape). -/
structure Primitive where
  M_br : Mat4R
  N_rb : Mat4R
  inside_out : Bool
  insideLocal : Vec4R → Bool
  normalLocal : Vec4R → Vec4R

/-- `Primitive.inside`: `self.inside_out ^ self.insideLocal(self.M_br @ r)`. -/
def Primitive.inside (P : Primitive) (r : Vec4R) : Bool :=
  xor P.inside_out (P.insideLocal (P.M_br.mulVec r))

/-- numpy element-wise `*` of a 4×4 array and a `(4,1)` column vector: the
column broadcasts across the columns of the array, so the result is again a
4×4 array with entry `(i,j)` equal to `A[i,j] * v[i]`. -/
def elemMul (A : Mat4R) (v : Vec4R) : Mat4R := Matrix.of fun i j => A i j * v i

/-- The array the source builds inside `Primitive.normal` as the argument
of `vnormalize`: `self.N_rb * self._normalLocal(self.M_br @ r)`, with
numpy element-wise `*` (not the matrix product `@`). -/
def Primitive.normalArg (P : Primitive) (r : Vec4R) : Mat4R :=
  elemMul P.N_rb (P.normalLocal (P.M_br.mulVec r))

/-- A `Renderable`: its own transformation list and an optional pigment.
The pigment (a `Field`) is itself a `Transformable`, modelled by its own
transformation list; transformations are represented by their matrices. -/
structure Renderable where
  transforms : List Mat4R
  pigment : Option (List Mat4R)

/-- The two list-method names used on a pigment in `renderable.py`. -/
inductive ListMethod where
  | append
  | add

/-- Method lookup on a `list`-derived `Transformable`/`Field`: Python
lists provide `append` but no method named `add`, so looking up `add`
raises `AttributeError`. -/
def listMethod (l : List Mat4R) : ListMethod → Option (Mat4R → List Mat4R)
  | .append => some (fun t => l ++ [t])
  | .add => none

/-- `Renderable.append`: `super().append(transform)` on the Renderable's
own list, then `self.pigment.add(transform)` when a pigment is present —
the latter is a lookup of the nonexistent list method `add`. -/
def Renderable.append (R : Renderable) (t : Mat4R) : Option Renderable :=
  match R.pigment with
  | none => some { R with transforms := R.transforms ++ [t] }
  | some p => (listMethod p .add).map
      (fun f => { transforms := R.transforms ++ [t], pigment := some (f t) })

/-- A concrete prepared primitive with identity cached matrices, right
side out, whose local normal is the (unnormalised) direction `(0,0,2,0)`
everywhere. -/
def c5Prim : Primitive :=
  { M_br := 1, N_rb := 1, inside_out := false,
    insideLocal := fun _ => false, normalLocal := fun _ => ![0, 0, 2, 0] }

/-! ## Helper lemmas -/

theorem dot3_comm (a b : Vec3R) : dot3 a b = dot3 b a := by
  simp only [dot3]; ring

theorem dot3_cross_left (a b : Vec3R) : dot3 (cross3 a b) a = 0 := by
  simp [dot3, cross3]; ring

theorem dot3_cross_right (a b : Vec3R) : dot3 (cross3 a b) b = 0 := by
  simp [dot3, cross3]; ring

theorem dot3_cross_self (a b : Vec3R) :
    dot3 (cross3 a b) (cross3 a b)
      = dot3 a a * dot3 b b - dot3 a b * dot3 a b := by
  simp [dot3, cross3]; ring

theorem dot3_self_nonneg (v : Vec3R) : 0 ≤ dot3 v v := by
  have h0 := mul_self_nonneg (v 0)
  have h1 := mul_self_nonneg (v 1)
  have h2 := mul_self_nonneg (v 2)
  simp only [dot3]
  linarith

theorem dot3_self_pos (v : Vec3R) (h : v ≠ 0) : 0 < dot3 v v := by
  rcases lt_or_eq_of_le (dot3_self_nonneg v) with hlt | heq
  · exact hlt
  · exfalso
    apply h
    simp only [dot3] at heq
    have h0 : v 0 = 0 := by
      nlinarith [mul_self_nonneg (v 0), mul_self_nonneg (v 1),
        mul_self_nonneg (v 2)]
    have h1 : v 1 = 0 := by
      nlinarith [mul_self_nonneg (v 0), mul_self_nonneg (v 1),
        mul_self_nonneg (v 2)]
    have h2 : v 2 = 0 := by
      nlinarith [mul_self_nonneg (v 0), mul_self_nonneg (v 1),
        mul_self_nonneg (v 2)]
    funext i
    fin_cases i
    · exact h0
    · exact h1
    · exact h2

theorem unit_ne_zero (v : Vec3R) (h : dot3 v v = 1) : v ≠ 0 := by
  intro h0
  rw [h0] at h
  simp [dot3] at h

theorem norm3_pos (v : Vec3R) (h : v ≠ 0) : 0 < norm3 v :=
  Real.sqrt_pos.mpr (dot3_self_pos v h)

theorem norm3_mul_self (v : Vec3R) : norm3 v * norm3 v = dot3 v v :=
  Real.mul_self_sqrt (dot3_self_nonneg v)

theorem normalized_unit (v : Vec3R) (h : dot3 v v = 1) : normalized v = v := by
  funext i
  simp [normalized, norm3, h]

theorem vnormalize_of_ne (v : Vec3R) (h : v ≠ 0) :
    vnormalize v = some (normalized v) := by
  simp [vnormalize, h]

theorem vnormalize_unit (v : Vec3R) (h : dot3 v v = 1) :
    vnormalize v = some v := by
  rw [vnormalize_of_ne v (unit_ne_zero v h), normalized_unit v h]

theorem vnormalize_zero : vnormalize 0 = none := by
  simp [vnormalize]

theorem dot3_normalized_self (v : Vec3R) (h : v ≠ 0) :
    dot3 (normalized v) (normalized v) = 1 := by
  have hn := norm3_pos v h
  have hsq := norm3_mul_self v
  have hne : norm3 v ≠ 0 := ne_of_gt hn
  simp only [normalized, dot3] at hsq ⊢
  field_simp
  linarith

theorem dot3_normalized_left (v w : Vec3R) :
    dot3 (normalized v) w = dot3 v w / norm3 v := by
  simp only [normalized, dot3]
  ring

theorem dot3_normalized_right (v w : Vec3R) :
    dot3 w (normalized v) = dot3 w v / norm3 v := by
  simp only [normalized, dot3]
  ring

theorem colMat_transpose (a b c : Vec3R) :
    (colMat a b c).transpose =
      !![a 0, a 1, a 2; b 0, b 1, b 2; c 0, c 1, c 2] := by
  ext i j
  fin_cases i <;> fin_cases j <;> rfl

theorem colMat_transpose_mul (a b c d e f : Vec3R) :
    (colMat a b c).transpose * colMat d e f =
      !![dot3 a d, dot3 a e, dot3 a f;
         dot3 b d, dot3 b e, dot3 b f;
         dot3 c d, dot3 c e, dot3 c f] := by
  rw [colMat_transpose]
  ext i j
  fin_cases i <;> fin_cases j <;>
    simp [colMat, Matrix.mul_apply, Fin.sum_univ_three, dot3]

theorem colMat_transpose_mulVec (a b c w : Vec3R) :
    (colMat a b c).transpose.mulVec w = ![dot3 a w, dot3 b w, dot3 c w] := by
  rw [colMat_transpose]
  funext i
  fin_cases i <;>
    simp [Matrix.mulVec, Matrix.dotProduct, Fin.sum_univ_three, dot3]

theorem colMat_mulVec_e0 (a b c : Vec3R) :
    (colMat a b c).mulVec ![1, 0, 0] = a := by
  funext i
  fin_cases i <;>
    simp [colMat, Matrix.mulVec, Matrix.dotProduct, Fin.sum_univ_three]

theorem colMat_orthonormal (p s u : Vec3R)
    (hp : dot3 p p = 1) (hs : dot3 s s = 1) (hu : dot3 u u = 1)
    (hps : dot3 p s = 0) (hpu : dot3 p u = 0) (hsu : dot3 s u = 0)
    (hsp : dot3 s p = 0) (hup : dot3 u p = 0) (hus : dot3 u s = 0) :
    (colMat p s u).transpose * colMat p s u = 1 := by
  rw [colMat_transpose_mul, hp, hs, hu, hps, hpu, hsu, hsp, hup, hus,
    Matrix.one_fin_three]

theorem embed4_row3 (A : Mat3R) : embed4 A 3 = ![0, 0, 0, 1] := by
  funext j
  fin_cases j <;> rfl

theorem upper3_embed4 (A : Mat3R) : upper3 (embed4 A) = A := by
  ext i j
  fin_cases i <;> fin_cases j <;> rfl

theorem embed4_mulVec_dir (A : Mat3R) (v : Vec3R) :
    (embed4 A).mulVec (homoDir v) = homoDir (A.mulVec v) := by
  funext i
  fin_cases i <;>
    simp [embed4, homoDir, Matrix.mulVec, Matrix.dotProduct,
      Fin.sum_univ_four, Fin.sum_univ_three]

theorem row3_mul (A B : Mat4R) (hA : A 3 = ![0, 0, 0, 1])
    (hB : B 3 = ![0, 0, 0, 1]) : (A * B) 3 = ![0, 0, 0, 1] := by
  funext j
  have hA0 := congrFun hA 0
  have hA1 := congrFun hA 1
  have hA2 := congrFun hA 2
  have hA3 := congrFun hA 3
  have hBj := congrFun hB j
  simp only [Matrix.cons_val_zero, Matrix.cons_val_one, Matrix.head_cons,
    Matrix.cons_val_two, Matrix.tail_cons, Matrix.cons_val_three] at hA0 hA1 hA2 hA3
  rw [Matrix.mul_apply, Fin.sum_univ_four, hA0, hA1, hA2, hA3, hBj]
  ring

/-- The orthonormal basis `[normalize p, s, u]` built by `calcPointToward`
in one frame: when `p` is unit and `p × t` is nonzero, each normalisation
succeeds, `u` is exactly `p × s`, and the three vectors are mutually
orthogonal unit vectors. -/
theorem basis_facts (p t : Vec3R) (hp : dot3 p p = 1) (ht : cross3 p t ≠ 0) :
    vnormalize (cross3 p t) = some (normalized (cross3 p t)) ∧
      vnormalize (cross3 p (normalized (cross3 p t)))
        = some (cross3 p (normalized (cross3 p t))) ∧
      vnormalize p = some p ∧
      dot3 (normalized (cross3 p t)) (normalized (cross3 p t)) = 1 ∧
      dot3 (cross3 p (normalized (cross3 p t)))
        (cross3 p (normalized (cross3 p t))) = 1 ∧
      dot3 p (normalized (cross3 p t)) = 0 ∧
      dot3 p (cross3 p (normalized (cross3 p t))) = 0 ∧
      dot3 (normalized (cross3 p t))
        (cross3 p (normalized (cross3 p t))) = 0 := by
  have hs1 : dot3 (normalized (cross3 p t)) (normalized (cross3 p t)) = 1 :=
    dot3_normalized_self _ ht
  have hps : dot3 p (normalized (cross3 p t)) = 0 := by
    rw [dot3_normalized_right]
    rw [dot3_comm, dot3_cross_left]
    exact zero_div _
  have huu : dot3 (cross3 p (normalized (cross3 p t)))
      (cross3 p (normalized (cross3 p t))) = 1 := by
    rw [dot3_cross_self, hp, hs1, hps]
    ring
  refine ⟨vnormalize_of_ne _ ht, vnormalize_unit _ huu, vnormalize_unit p hp,
    hs1, huu, hps, ?_, ?_⟩
  · rw [dot3_comm, dot3_cross_left]
  · rw [dot3_comm, dot3_cross_right]

theorem translationMatrix_row3 (d : Vec3R) :
    translationMatrix d 3 = ![0, 0, 0, 1] := by
  funext j
  fin_cases j <;> rfl

theorem scalingMatrix_row3 (s : Vec3R) :
    scalingMatrix s 3 = ![0, 0, 0, 1] := by
  funext j
  fin_cases j <;> rfl

theorem uniformScalingMatrix_row3 (s : ℝ) :
    uniformScalingMatrix s 3 = ![0, 0, 0, 1] := by
  funext j
  fin_cases j <;> rfl

theorem row3_mulVec (M : Mat4R) (v : Vec4R) (h : M 3 = ![0, 0, 0, 1]) :
    M.mulVec v 3 = v 3 := by
  have h0 := congrFun h 0
  have h1 := congrFun h 1
  have h2 := congrFun h 2
  have h3 := congrFun h 3
  simp only [Matrix.cons_val_zero, Matrix.cons_val_one, Matrix.head_cons,
    Matrix.cons_val_two, Matrix.tail_cons, Matrix.cons_val_three]
    at h0 h1 h2 h3
  simp [Matrix.mulVec, Matrix.dotProduct, Fin.sum_univ_four, h0, h1, h2, h3]

theorem calcPointToward_row3 (p_b p_r t_b t_r : Vec3R) (M : Mat4R)
    (h : calcPointToward p_b p_r t_b t_r = some M) : M 3 = ![0, 0, 0, 1] := by
  simp only [calcPointToward, Option.bind_eq_bind, Option.bind_eq_some] at h
  obtain ⟨s_r, _, u_r, _, np_r, _, s_b, _, u_b, _, np_b, _, hM⟩ := h
  rw [← Option.some_inj.mp hM]
  exact embed4_row3 _

theorem translationMatrixRun_eq_none (d : Vec3R) :
    translationMatrixRun d = none := rfl

theorem calcLocationLookat_eq_none (location look_at : Vec3R)
    (p_bOpt t_bOpt t_rOpt : Option Vec3R) :
    calcLocationLookat location look_at p_bOpt t_bOpt t_rOpt = none := by
  cases h : calcPointToward (p_bOpt.getD ![0, 0, 1]) (look_at - location)
      (t_bOpt.getD ![0, 1, 0]) (t_rOpt.getD ![0, 0, -1]) with
  | none => simp [calcLocationLookat, h]
  | some M_pt => simp [calcLocationLookat, h, translationMatrixRun_eq_none]

theorem calcLocationLookat_row3 (location look_at : Vec3R)
    (p_bOpt t_bOpt t_rOpt : Option Vec3R) (M : Mat4R)
    (h : calcLocationLookat location look_at p_bOpt t_bOpt t_rOpt = some M) :
    M 3 = ![0, 0, 0, 1] := by
  rw [calcLocationLookat_eq_none] at h
  exact Option.noConfusion h

theorem combine_foldl (l : List Mat4R) (A : Mat4R) :
    l.foldl (fun result trans => trans * result) A = l.reverse.prod * A := by
  induction l generalizing A with
  | nil => simp
  | cons M l ih =>
      simp [List.foldl_cons, ih, List.prod_append, mul_assoc]

theorem foldl_mulVec (l : List Mat4R) (A : Mat4R) (r : Vec4R) :
    (l.foldl (fun result trans => trans * result) A).mulVec r
      = l.foldl (fun w M => M.mulVec w) (A.mulVec r) := by
  induction l generalizing A with
  | nil => rfl
  | cons M l ih =>
      simp only [List.foldl_cons, ih, Matrix.mulVec_mulVec]

/-! ## Claim theorems -/

/-- C1: `combine()` multiplies the appended matrices in list order from
the right, `combine [T1, …, Tn] = Tn * ⋯ * T1`, and applying the combined
matrix to a homogeneous vector `r` is the same as applying `T1` first,
then `T2`, and so on in sequence to `r`. -/
theorem c1_combine_order (l : List Mat4R) :
    combine l = l.reverse.prod ∧
      ∀ r : Vec4R, (combine l).mulVec r
        = l.foldl (fun w M => M.mulVec w) r := by
  constructor
  · simpa using combine_foldl l 1
  · intro r
    simpa using foldl_mulVec l 1 r

/-- C2: for unit direction inputs with `p` not parallel to `t` in each
frame, `calcPointToward` succeeds, the upper-left 3×3 block of the
resulting matrix `M` is orthonormal, and `M` maps the direction `p_b`
exactly to `p_r`. -/
theorem c2_pointToward (p_b t_b p_r t_r : Vec3R)
    (hpb : dot3 p_b p_b = 1) (htb : dot3 t_b t_b = 1)
    (hpr : dot3 p_r p_r = 1) (htr : dot3 t_r t_r = 1)
    (hcb : cross3 p_b t_b ≠ 0) (hcr : cross3 p_r t_r ≠ 0) :
    ∃ M, calcPointToward p_b p_r t_b t_r = some M ∧
      (upper3 M).transpose * upper3 M = 1 ∧
      M.mulVec (homoDir p_b) = homoDir p_r := by
  obtain ⟨hr1, hr2, hr3, hsr1, hur1, hprs, hpru, hsru⟩ :=
    basis_facts p_r t_r hpr hcr
  obtain ⟨hb1, hb2, hb3, hsb1, hub1, hpbs, hpbu, hsbu⟩ :=
    basis_facts p_b t_b hpb hcb
  have hM : calcPointToward p_b p_r t_b t_r
      = some (embed4 (colMat p_r (normalized (cross3 p_r t_r))
          (cross3 p_r (normalized (cross3 p_r t_r))) *
        (colMat p_b (normalized (cross3 p_b t_b))
          (cross3 p_b (normalized (cross3 p_b t_b)))).transpose)) := by
    simp [calcPointToward, hr1, hr2, hr3, hb1, hb2, hb3]
  set s_r := normalized (cross3 p_r t_r) with hsrdef
  set s_b := normalized (cross3 p_b t_b) with hsbdef
  set u_r := cross3 p_r s_r with hurdef
  set u_b := cross3 p_b s_b with hubdef
  have hR : (colMat p_r s_r u_r).transpose * colMat p_r s_r u_r = 1 :=
    colMat_orthonormal p_r s_r u_r hpr hsr1 hur1 hprs hpru hsru
      (by rw [dot3_comm]; exact hprs) (by rw [dot3_comm]; exact hpru)
      (by rw [dot3_comm]; exact hsru)
  have hB : (colMat p_b s_b u_b).transpose * colMat p_b s_b u_b = 1 :=
    colMat_orthonormal p_b s_b u_b hpb hsb1 hub1 hpbs hpbu hsbu
      (by rw [dot3_comm]; exact hpbs) (by rw [dot3_comm]; exact hpbu)
      (by rw [dot3_comm]; exact hsbu)
  refine ⟨embed4 (colMat p_r s_r u_r * (colMat p_b s_b u_b).transpose),
    hM, ?_, ?_⟩
  · rw [upper3_embed4, Matrix.transpose_mul, Matrix.transpose_transpose,
      mul_assoc, ← mul_assoc (colMat p_r s_r u_r).transpose, hR, one_mul,
      Matrix.mul_eq_one_comm.mp hB]
  · rw [embed4_mulVec_dir, ← Matrix.mulVec_mulVec, colMat_transpose_mulVec,
      hpb, dot3_comm s_b p_b, hpbs, dot3_comm u_b p_b, hpbu, colMat_mulVec_e0]

/-- Witness for C2 at the concrete unit, non-parallel inputs
`p_b = (1,0,0)`, `t_b = (0,1,0)`, `p_r = (0,1,0)`, `t_r = (0,0,1)`. -/
theorem c2_pointToward_witness :
    ∃ M, calcPointToward ![(1:ℝ), 0, 0] ![0, 1, 0] ![0, 1, 0] ![0, 0, 1]
        = some M ∧
      (upper3 M).transpose * upper3 M = 1 ∧
      M.mulVec (homoDir ![1, 0, 0]) = homoDir ![0, 1, 0] :=
  c2_pointToward ![1, 0, 0] ![0, 1, 0] ![0, 1, 0] ![0, 0, 1]
    (by norm_num [dot3]) (by norm_num [dot3])
    (by norm_num [dot3]) (by norm_num [dot3])
    (by
      intro h
      have h2 := congrFun h 2
      norm_num [cross3] at h2)
    (by
      intro h
      have h0 := congrFun h 0
      norm_num [cross3] at h0)

/-- C3: `prepareRender()` caches exactly `M_rb = combine()`, `M_br` the
matrix inverse of `M_rb`, and `N_rb` the transpose of `M_br`. -/
theorem c3_prepareRender (l : List Mat4R) :
    (prepareRender l).M_rb = combine l ∧
      (prepareRender l).M_br = (combine l)⁻¹ ∧
      (prepareRender l).N_rb = ((combine l)⁻¹).transpose :=
  ⟨rfl, rfl, rfl⟩

/-- C4: the source `Translation.matrix` writes the offset into the first
row, not the translation column: at `d = (1,2,3)` it differs from the
identity-with-translation-column matrix the spec describes, it maps the
Position `(0,0,1,1)` to `(3,0,1,1)` instead of `(1,2,4,1)`, and it moves
the Direction `(0,0,1,0)` to `(3,0,1,0)` instead of leaving it unchanged. -/
theorem c4_translation_row_bug :
    translationMatrix ![1, 2, 3] ≠ specTranslationMatrix ![1, 2, 3] ∧
      (translationMatrix ![1, 2, 3]).mulVec (Position 0 0 1) = ![3, 0, 1, 1] ∧
      (specTranslationMatrix ![1, 2, 3]).mulVec (Position 0 0 1) = ![1, 2, 4, 1] ∧
      (translationMatrix ![1, 2, 3]).mulVec (Direction 0 0 1) = ![3, 0, 1, 0] := by
  refine ⟨?_, ?_, ?_, ?_⟩
  · intro h
    have h02 := congrFun (congrFun h 0) 2
    norm_num [translationMatrix, specTranslationMatrix] at h02
  · funext i
    fin_cases i <;>
      norm_num [Matrix.mulVec, Matrix.dotProduct, Fin.sum_univ_four,
        translationMatrix, Position]
  · funext i
    fin_cases i <;>
      norm_num [Matrix.mulVec, Matrix.dotProduct, Fin.sum_univ_four,
        specTranslationMatrix, Position]
  · funext i
    fin_cases i <;>
      norm_num [Matrix.mulVec, Matrix.dotProduct, Fin.sum_univ_four,
        translationMatrix, Direction]

/-- C5: inside `Primitive.normal` the source computes
`N_rb * _normalLocal(M_br @ r)` with numpy element-wise `*`, which
broadcasts the 4×1 local normal across the columns of `N_rb` and yields a
4×4 array, not a transformed direction vector: already for the identity
`N_rb` and local normal `(0,0,2,0)` the array has the unequal entries `2`
at `(2,2)` and `0` at `(2,1)` in one row, so it is not (a broadcast of)
any column vector, while the matrix product `N_rb @ n` the spec describes
is the vector `(0,0,2,0)`. -/
theorem c5_normal_elementwise_bug :
    c5Prim.normalArg (Position 0 0 0) 2 2 = 2 ∧
      c5Prim.normalArg (Position 0 0 0) 2 1 = 0 ∧
      (¬ ∃ w : Vec4R, c5Prim.normalArg (Position 0 0 0)
          = Matrix.of fun i _ => w i) ∧
      (c5Prim.N_rb).mulVec (c5Prim.normalLocal
          ((c5Prim.M_br).mulVec (Position 0 0 0))) = ![0, 0, 2, 0] := by
  refine ⟨?_, ?_, ?_, ?_⟩
  · simp [c5Prim, Primitive.normalArg, elemMul, Matrix.one_apply]
  · simp [c5Prim, Primitive.normalArg, elemMul, Matrix.one_apply]
  · rintro ⟨w, h⟩
    have h1 := congrFun (congrFun h 2) 2
    have h2 := congrFun (congrFun h 2) 1
    simp [c5Prim, Primitive.normalArg, elemMul, Matrix.one_apply] at h1 h2
    rw [← h1] at h2
    norm_num at h2
  · simp [c5Prim, Matrix.one_mulVec]

/-- C6: `inside(r)` is the local inside-test at `M_br @ r` XOR'd with
`inside_out`, and switching `inside_out` flips the boolean result for the
same primitive and point. -/
theorem c6_inside_xor (P : Primitive) (r : Vec4R) :
    P.inside r = xor (P.insideLocal (P.M_br.mulVec r)) P.inside_out ∧
      Primitive.inside { P with inside_out := !P.inside_out } r
        = !(P.inside r) := by
  constructor
  · simp [Primitive.inside, Bool.xor_comm]
  · cases h2 : P.inside_out <;> cases h : P.insideLocal (P.M_br.mulVec r) <;>
      simp [Primitive.inside, h, h2]

/-- C7: `Ray.__rmatmul__` never produces a transformed ray: it reads the
attribute `R0`, which `__init__` (which assigns `r0` and `v`) never set,
so the attribute lookup fails for every matrix and every ray. -/
theorem c7_rmatmul_fails (M : Mat4R) (ray : Ray) :
    Ray.rmatmul M ray = none := rfl

/-- C8: the source never produces a LocationLookAt matrix.
`calcLocationLookat` (transformation.py line 323) left-multiplies the
Point-Toward result by `Translation(location).matrix()`, whose row-slice
assignment raises `ValueError` on every call, so for all inputs no matrix
results — in particular not the claimed `Translation @ PointToward`
product, and not, in the spec's end-to-end example `location = (0,0,0)`,
`look_at = (0,0,-10)` with defaults, a matrix mapping `p_b = +Z` to
`(0,0,-1)` (that example is besides degenerate: `p_r = (0,0,-10)` is
parallel to the default `t_r = (0,0,-1)`, so already the Point-Toward
basis normalisation is of a zero cross product). -/
theorem c8_locationLookat_never_returns (location look_at : Vec3R)
    (p_bOpt t_bOpt t_rOpt : Option Vec3R) :
    calcLocationLookat location look_at p_bOpt t_bOpt t_rOpt = none :=
  calcLocationLookat_eq_none location look_at p_bOpt t_bOpt t_rOpt

/-- C10: whenever a `Transformation` variant produces a matrix, its fourth
row is `(0, 0, 0, 1)`, so multiplying it with any homogeneous vector
preserves the `w` component (Positions map to Positions and Directions to
Directions). -/
theorem c10_fourth_row (t : Transformation) (M : Mat4R)
    (h : t.matrix = some M) :
    M 3 = ![0, 0, 0, 1] ∧ ∀ v : Vec4R, M.mulVec v 3 = v 3 := by
  have hrow : M 3 = ![0, 0, 0, 1] := by
    cases t with
    | translation d =>
        simp only [Transformation.matrix, Option.some.injEq] at h
        rw [← h]
        exact translationMatrix_row3 d
    | scaling s =>
        simp only [Transformation.matrix, Option.some.injEq] at h
        rw [← h]
        exact scalingMatrix_row3 s
    | uniformScaling s =>
        simp only [Transformation.matrix, Option.some.injEq] at h
        rw [← h]
        exact uniformScalingMatrix_row3 s
    | rotateScalar amount axis isDegrees =>
        simp only [Transformation.matrix, Option.some.injEq] at h
        rw [← h]
        exact embed4_row3 _
    | rotateVector a isDegrees =>
        simp only [Transformation.matrix, Option.some.injEq] at h
        rw [← h]
        exact embed4_row3 _
    | pointToward p_b p_r t_b t_r =>
        exact calcPointToward_row3 p_b p_r t_b t_r M h
    | locationLookat location look_at p_b t_b t_r =>
        exact calcLocationLookat_row3 location look_at
          (some p_b) (some t_b) (some t_r) M h
  exact ⟨hrow, fun v => row3_mulVec M v hrow⟩

/-- Witness for C10 at the concrete variant `Translation((1,2,3))`, whose
`matrix()` is defined and whose fourth row is `(0,0,0,1)`. -/
theorem c10_fourth_row_witness :
    Transformation.matrix (.translation ![1, 2, 3])
        = some (translationMatrix ![1, 2, 3]) ∧
      translationMatrix ![1, 2, 3] 3 = ![0, 0, 0, 1] :=
  ⟨rfl, (c10_fourth_row (.translation ![1, 2, 3])
    (translationMatrix ![1, 2, 3]) rfl).1⟩

/-- C9: with a pigment present, `Renderable.append` calls the nonexistent
list method `add` on the pigment and fails, instead of appending the
transformation to the pigment's list; with no pigment, only the
Renderable's own transformation list is extended. -/
theorem c9_append_pigment :
    Renderable.append { transforms := [], pigment := some [] } 1 = none ∧
      Renderable.append { transforms := [], pigment := none } 1
        = some { transforms := [1], pigment := none } :=
  ⟨rfl, rfl⟩

end Kwantrace
